import Mathlib

/-!
Verification of the Obsidian vault utilities (`link_notes.py`, `organize_files.py`).

The Python sources are shallowly embedded below.  Strings are modelled as
`List Char` (accessed through `String.data`), file contents and filenames are
strings, Python `None`-returning fallible operations become `Option`, and a
propagating Python exception becomes `Except String`.  Every definition is
translated from the source files; the only definitions written from the
specification's wording instead are explicitly marked as such in their doc
comments (`specParse`).
-/

namespace ObsidianClean

/-! ## Python string primitives used by the sources

The sources use `str.replace(".md", "")`, `re.sub(r"\(\d+\)$", "", s)`,
`re.match(r"^(\d{1,2})-(\d{1,2})-(\d{4})$", s)`, `str.split("-")`,
`str.strip()`, `str.startswith("#")`, the `in` substring test, and `int(...)`.
Each is modelled on `List Char`.  Python's `\d` and `int` also accept
non-ASCII unicode digits and `int` accepts underscore digit separators; those
forms never occur in the repository's filenames and are not modelled (ASCII
digits only).  Likewise `$` in the two anchored regexes also matches just
before a single final newline; filenames carry no newlines, so `$` is
modelled as end of string.
-/

/-- `filename.replace(".md", "")`: remove every (non-overlapping, leftmost
first) occurrence of the three characters `.md`. -/
def removeMdAll : List Char → List Char
  | [] => []
  | [c1] => [c1]
  | [c1, c2] => [c1, c2]
  | c1 :: c2 :: c3 :: rest =>
    if c1 = '.' ∧ c2 = 'm' ∧ c3 = 'd' then removeMdAll rest
    else c1 :: removeMdAll (c2 :: c3 :: rest)

/-- `re.sub(r"\(\d+\)$", "", s)`: drop a trailing `(digits)` group (at least
one digit), if present. -/
def stripDupSuffixCh (s : List Char) : List Char :=
  match s.reverse with
  | [] => s
  | c :: rest =>
    if c = ')' then
      if rest.takeWhile Char.isDigit = [] then s
      else
        match rest.dropWhile Char.isDigit with
        | [] => s
        | c2 :: rest2 => if c2 = '(' then rest2.reverse else s
    else s

/-- `s.split("-")` (Python `str.split` with an explicit separator keeps empty
fields, and `"".split("-") == [""]`). -/
def splitOnDash : List Char → List (List Char)
  | [] => [[]]
  | c :: rest =>
    if c = '-' then [] :: splitOnDash rest
    else
      match splitOnDash rest with
      | [] => [[c]]
      | g :: gs => (c :: g) :: gs

/-- Numeric value of an all-digit token, as `int` computes it. -/
def natOfDigits (cs : List Char) : Nat :=
  cs.foldl (fun a c => 10 * a + (c.toNat - 48)) 0

/-- Whitespace stripped by Python `str.strip()` (ASCII part). -/
def pyIsSpace (c : Char) : Bool :=
  c = ' ' ∨ c = '\t' ∨ c = '\n' ∨ c = '\r' ∨ c = '\x0b' ∨ c = '\x0c'

/-- Python `str.strip()`. -/
def pyStrip (s : List Char) : List Char :=
  ((s.dropWhile pyIsSpace).reverse.dropWhile pyIsSpace).reverse

/-- Python `int(token)` on a string: optional surrounding whitespace, optional
sign, then at least one digit; anything else raises `ValueError`, modelled as
`none`. -/
def pyInt (s : List Char) : Option Int :=
  let core : List Char → Option Nat := fun cs =>
    if cs ≠ [] ∧ cs.all Char.isDigit then some (natOfDigits cs) else none
  match pyStrip s with
  | '+' :: rest => (core rest).map Int.ofNat
  | '-' :: rest => (core rest).map fun n => -(n : Int)
  | rest => (core rest).map Int.ofNat

/-- Python substring test `needle in hay`. -/
def hasSubstr (hay needle : List Char) : Bool :=
  match hay with
  | [] => needle.isEmpty
  | _ :: t => needle.isPrefixOf hay || hasSubstr t needle

/-- `content.strip().startswith("#")`. -/
def startsWithHash (s : List Char) : Bool :=
  match pyStrip s with
  | '#' :: _ => true
  | _ => false

/-- Python list indexing `xs[i]`: non-negative indices from the front,
negative indices from the back, `IndexError` (here `none`) outside
`-len xs ≤ i < len xs`. -/
def pyIndex {α : Type} (xs : List α) (i : Int) : Option α :=
  if 0 ≤ i then xs.get? i.toNat
  else if 0 ≤ i + xs.length then xs.get? (i + xs.length).toNat
  else none

/-- Python `str(n)` for a natural number (decimal, no sign).  The fuel
`n + 1` always exceeds the number of decimal digits of `n`. -/
def digitChar : Nat → Char
  | 0 => '0' | 1 => '1' | 2 => '2' | 3 => '3' | 4 => '4'
  | 5 => '5' | 6 => '6' | 7 => '7' | 8 => '8' | 9 => '9'
  | _ => '*'

def natDecimalAux : Nat → Nat → List Char
  | 0, _ => []
  | fuel + 1, n =>
    if n < 10 then [digitChar n]
    else natDecimalAux fuel (n / 10) ++ [digitChar (n % 10)]

def pyStr (n : Nat) : String := ⟨natDecimalAux (n + 1) n⟩

/-! ## The Date Parser (`parse_date_from_filename`, both sources)

`link_notes.py` returns the full date (a `datetime`), `organize_files.py`
the `(month, year)` pair; the parsing logic is character-identical in the
two files.
-/

/-- A calendar date as produced by Python `datetime(year, month, day)`. -/
structure Date where
  year : Nat
  month : Nat
  day : Nat
deriving DecidableEq, Repr

def isLeapYear (y : Nat) : Bool :=
  (y % 4 == 0 && y % 100 != 0) || (y % 400 == 0)

def daysInMonth (y m : Nat) : Nat :=
  if m = 2 then (if isLeapYear y then 29 else 28)
  else if m = 4 ∨ m = 6 ∨ m = 9 ∨ m = 11 then 30
  else 31

/-- Python `datetime(year, month, day)`: raises `ValueError` (here `none`)
unless `1 ≤ year ≤ 9999`, `1 ≤ month ≤ 12` and the day fits the month. -/
def mkDatetime (y m d : Nat) : Option Date :=
  if 1 ≤ y ∧ y ≤ 9999 ∧ 1 ≤ m ∧ m ≤ 12 ∧ 1 ≤ d ∧ d ≤ daysInMonth y m
  then some ⟨y, m, d⟩ else none

/-- The regex match `^(\d{1,2})-(\d{1,2})-(\d{4})$` with the three groups
converted by `int`.  Returns `(month, day, year)` in group order. -/
def matchMDYCh (s : List Char) : Option (Nat × Nat × Nat) :=
  match splitOnDash s with
  | [m, d, y] =>
    if 1 ≤ m.length ∧ m.length ≤ 2 ∧ m.all Char.isDigit ∧
       1 ≤ d.length ∧ d.length ≤ 2 ∧ d.all Char.isDigit ∧
       y.length = 4 ∧ y.all Char.isDigit
    then some (natOfDigits m, natOfDigits d, natOfDigits y)
    else none
  | _ => none

/-- `parse_date_from_filename` (`link_notes.py` lines 14-40): remove every
`.md` occurrence, drop a trailing `(N)` duplicate marker, match `M-D-YYYY`,
validate through `datetime`. -/
def parse_date_chars (s : List Char) : Option Date :=
  match matchMDYCh (stripDupSuffixCh (removeMdAll s)) with
  | some (m, d, y) => mkDatetime y m d
  | none => none

def parse_date_from_filename (filename : String) : Option Date :=
  parse_date_chars filename.data

/-- `parse_date_from_filename` from `organize_files.py` (lines 54-81): the
same algorithm, returning `(month, year)`. -/
def parse_month_year (filename : String) : Option (Nat × Nat) :=
  (parse_date_from_filename filename).map fun dt => (dt.month, dt.year)

/-- Modelled from the spec (section 4.1 / testable property 1), for
comparison with the implementation: strip a single *trailing* `.md`
extension if present, then proceed exactly as the implementation does.
The implementation instead removes every `.md` occurrence. -/
def stripTrailingMd : List Char → List Char
  | [] => []
  | [c1] => [c1]
  | [c1, c2] => [c1, c2]
  | [c1, c2, c3] => if c1 = '.' ∧ c2 = 'm' ∧ c3 = 'd' then [] else [c1, c2, c3]
  | c1 :: c2 :: c3 :: c4 :: rest => c1 :: stripTrailingMd (c2 :: c3 :: c4 :: rest)

def specParse (s : String) : Option Date :=
  match matchMDYCh (stripDupSuffixCh (stripTrailingMd s.data)) with
  | some (m, d, y) => mkDatetime y m d
  | none => none

/-- `true` when every occurrence of `.md` in the string is a trailing
extension (the boundary on which the implementation and the specification's
wording agree). -/
def interiorMdFree : List Char → Bool
  | [] => true
  | [_] => true
  | [_, _] => true
  | c1 :: c2 :: c3 :: rest =>
    if c1 = '.' ∧ c2 = 'm' ∧ c3 = 'd' then decide (rest = [])
    else interiorMdFree (c2 :: c3 :: rest)

/-! ## The Heading Fixer (`fix_markdown_heading`, `organize_files.py` lines 14-51)

File I/O is modelled by passing the read result explicitly: `none` stands
for a failing `open`/`read` (the outer `except Exception: return False`),
`some content` for a successful read.  The function returns the content the
file holds afterwards together with its Python return value coerced to a
truth value (`True` on the rewrite branch; the implicit `None` on the
no-change branch is falsy).
-/

def month_names : List String :=
  ["January", "February", "March", "April", "May", "June",
   "July", "August", "September", "October", "November", "December"]

/-- The title synthesized inside the inner `try`: split the stem on `-`;
with exactly three fields, `month_names[int(month) - 1]` renders the month
(any `ValueError`/`IndexError`, like a non-numeric month or a month of 13,
falls back through the bare `except` to the verbatim `# <stem>` title). -/
def headingTitle (stem content : String) : String :=
  match splitOnDash stem.data with
  | [month, day, year] =>
    match pyInt month with
    | some mval =>
      match pyIndex month_names (mval - 1) with
      | some month_name =>
        "# " ++ month_name ++ " " ++ ⟨day⟩ ++ ", " ++ ⟨year⟩ ++ "\n\n" ++ content
      | none => "# " ++ stem ++ "\n\n" ++ content
    | none => "# " ++ stem ++ "\n\n" ++ content
  | _ => "# " ++ stem ++ "\n\n" ++ content

def fix_markdown_heading (stem : String) (readResult : Option String) :
    Option String × Bool :=
  match readResult with
  | none => (none, false)
  | some content =>
    if startsWithHash content.data then (some content, false)
    else (some (headingTitle stem content), true)

/-! ## The Linker (`link_notes.py`) -/

/-- A scanned note file: its path (unique on disk), its basename
(`file_path.name`), and its content. -/
structure NoteFile where
  path : String
  name : String
  content : String
deriving DecidableEq, Repr

/-- The appended link text
`f"\n\n---\n**Next:** [[{next_note_filename.replace('.md', '')}]]"`. -/
def linkBlock (next_note_filename : String) : String :=
  "\n\n---\n**Next:** [[" ++ (⟨removeMdAll next_note_filename.data⟩ : String) ++ "]]"

/-- `add_next_note_link` (lines 62-84) on a successfully read file: skip when
`f"[[{next_note_filename}]]"` (the bracketed *filename*, extension included)
occurs in the content, else append `linkBlock`.  Returns the resulting
content and the function's return value. -/
def add_next_note_link (content : String) (next_note_filename : String) :
    String × Bool :=
  if hasSubstr content.data ("[[" ++ next_note_filename ++ "]]").data
  then (content, false)
  else (content ++ linkBlock next_note_filename, true)

/-- Chronological order on dates (Python compares `datetime` values). -/
def dateKey (d : Date) : Nat := d.year * 10000 + d.month * 100 + d.day

def insertSorted (d : Date) : List Date → List Date
  | [] => [d]
  | e :: rest => if dateKey d ≤ dateKey e then d :: e :: rest else e :: insertSorted d rest

/-- `sorted(all_dates.keys())` (keys are distinct, so stability is moot). -/
def sortDates (l : List Date) : List Date := l.foldr insertSorted []

/-- `sorted_dates.index(current_date)`, `none` for the `ValueError` branch. -/
def idxOfDate (d : Date) : List Date → Option Nat
  | [] => none
  | e :: rest => if e = d then some 0 else (idxOfDate d rest).map (· + 1)

/-- First-match association lookup; the builders below keep keys distinct,
mirroring a Python dict. -/
def lookupAssoc {α : Type} : List (Date × α) → Date → Option α
  | [], _ => none
  | (k, v) :: rest, d => if k = d then some v else lookupAssoc rest d

/-- `get_next_note_link` (lines 43-59): find the current date in the sorted
key list and return the mapping's value at the next key.  The value type is
whatever the caller's mapping stores: a single file in vault-wide mode, a
*list* of files in per-folder mode. -/
def get_next_note_link {α : Type} (current_date : Date)
    (all_dates : List (Date × α)) : Option α :=
  let sorted_dates := sortDates (all_dates.map Prod.fst)
  match idxOfDate current_date sorted_dates with
  | some i =>
    match sorted_dates.get? (i + 1) with
    | some next_date => lookupAssoc all_dates next_date
    | none => none
  | none => none

/-- Python dict assignment `m[d] = f`: update in place if the key exists
(keeping its position), else append. -/
def insertAssoc : List (Date × NoteFile) → Date → NoteFile → List (Date × NoteFile)
  | [], d, f => [(d, f)]
  | (k, v) :: rest, d, f =>
    if k = d then (k, f) :: rest else (k, v) :: insertAssoc rest d f

/-- `defaultdict(list)` with `m[d].append(f)`. -/
def appendToKey : List (Date × List NoteFile) → Date → NoteFile →
    List (Date × List NoteFile)
  | [], d, f => [(d, [f])]
  | (k, fs) :: rest, d, f =>
    if k = d then (k, fs ++ [f]) :: rest else (k, fs) :: appendToKey rest d f

/-- One scan step of `link_all_vault_notes` (lines 147-150):
`all_date_files[date_obj] = file_path` for a parsable name, else skip. -/
def vaultStep (m : List (Date × NoteFile)) (f : NoteFile) : List (Date × NoteFile) :=
  match parse_date_from_filename f.name with
  | some d => insertAssoc m d f
  | none => m

/-- The vault-wide date-to-file mapping built by `link_all_vault_notes`
from the files in `rglob` order. -/
def link_all_vault_notes_map (files : List NoteFile) : List (Date × NoteFile) :=
  files.foldl vaultStep []

/-- The last file of the scan whose name parses to `d` — the survivor the
collision policy keeps. -/
def lastWithDate (d : Date) : List NoteFile → Option NoteFile
  | [] => none
  | f :: fs =>
    match lastWithDate d fs with
    | some g => some g
    | none => if parse_date_from_filename f.name = some d then some f else none

/-- The per-folder mapping of `link_notes_in_directory` (lines 96-103). -/
def buildDirMap (files : List NoteFile) : List (Date × List NoteFile) :=
  files.foldl (fun m f =>
    match parse_date_from_filename f.name with
    | some d => appendToKey m d f
    | none => m) []

/-- The attribute access `next_note_filename.name` in per-folder mode (line
116/119): the value handed over is a `list`, and a Python list has no `name`
attribute, so the access raises `AttributeError` unconditionally. -/
def listName (_files : List NoteFile) : Except String String :=
  Except.error "AttributeError"

/-- `link_notes_in_directory` (lines 87-131): group the folder's files by
date, then for every file look up the next chronological entry and link to
it.  Returns `(linked_count, skipped_count)`; the uncaught `AttributeError`
surfaces as `Except.error`.  The per-run file writes are not threaded back
into the mapping because each file is visited exactly once per run. -/
def link_notes_in_directory (files : List NoteFile) : Except String (Nat × Nat) :=
  let date_to_files := buildDirMap files
  date_to_files.foldlM (fun counts entry =>
    entry.2.foldlM (fun counts file => do
      match get_next_note_link entry.1 date_to_files with
      | some nextFiles =>
        if nextFiles.isEmpty then pure (counts.1, counts.2 + 1)
        else do
          let nm ← listName nextFiles
          if (add_next_note_link file.content nm).2
          then pure (counts.1 + 1, counts.2)
          else pure (counts.1, counts.2 + 1)
      | none => pure (counts.1, counts.2 + 1)) counts)
    ((0, 0) : Nat × Nat)

/-! ## The Organizer's collision avoidance (`organize_files.py` lines 136-156)

`stem`/`suffix` are `original_target.stem` and `original_target.suffix`
(their concatenation is the original basename), `existing` the basenames
already present in the destination folder.
-/

def mkCand (stem sfx : String) (counter : Nat) : String :=
  stem ++ "(" ++ pyStr counter ++ ")" ++ sfx

/-- The `while target_file.exists()` loop: try `stem(counter)suffix` for
`counter = 1, 2, ...` until a free name appears.  The fuel bounds the number
of iterations; `existing.length + 1` candidates cannot all be taken, so the
fuel-exhausted branch is unreachable (proved below). -/
def findFreeName (existing : List String) (stem sfx : String) :
    Nat → Nat → String
  | 0, counter => mkCand stem sfx counter
  | fuel + 1, counter =>
    if mkCand stem sfx counter ∈ existing
    then findFreeName existing stem sfx fuel (counter + 1)
    else mkCand stem sfx counter

/-- The destination basename `organize_files` moves a file to: the original
name when free, otherwise the first free `stem(N)suffix`. -/
def resolveTarget (existing : List String) (stem sfx : String) : String :=
  if stem ++ sfx ∈ existing
  then findFreeName existing stem sfx (existing.length + 1) 1
  else stem ++ sfx

/-! ## Theorems -/

/-- C7: the Heading Fixer applied to content `hello` with stem `5-2-2025`
prepends `# May 2, 2025` exactly once and reports a change; applied again to
the result (which now starts with `#`) it leaves the file unchanged. -/
theorem heading_fix_once_then_noop :
    fix_markdown_heading "5-2-2025" (some "hello")
      = (some ("# May 2, 2025\n\nhello"), true) ∧
    fix_markdown_heading "5-2-2025" (some "# May 2, 2025\n\nhello")
      = (some ("# May 2, 2025\n\nhello"), false) := by
  decide

/-- C1 (code bug): `add_next_note_link` does not detect the link it itself
appended.  After linking `hello` to `1-2-2025.md` the content ends with the
block `\n\n---\n**Next:** [[1-2-2025]]`, yet a second call looks for
`[[1-2-2025.md]]`, fails to find it, and appends the block again instead of
leaving the file unchanged. -/
theorem relink_appends_again :
    (add_next_note_link "hello" "1-2-2025.md").2 = true ∧
    (add_next_note_link (add_next_note_link "hello" "1-2-2025.md").1
        "1-2-2025.md").2 = true ∧
    (add_next_note_link (add_next_note_link "hello" "1-2-2025.md").1
        "1-2-2025.md").1
      = "hello" ++ linkBlock "1-2-2025.md" ++ linkBlock "1-2-2025.md" := by
  decide

/-- C2 (code bug): a file whose content already contains the target's stem
wrapped in double brackets (`[[1-2-2025]]`) is *not* skipped: the check
tests for the bracketed filename with its extension (`[[1-2-2025.md]]`),
misses, and the block is appended. -/
theorem existing_stem_link_not_detected :
    add_next_note_link "see [[1-2-2025]]" "1-2-2025.md"
      = ("see [[1-2-2025]]" ++ linkBlock "1-2-2025.md", true) := by
  decide

/-- C5 (code bug): per-folder linking over a folder with two dated files
(`1-1-2025.md`, `1-2-2025.md`) raises `AttributeError` instead of linking
file 1 to file 2: the per-folder mapping stores *lists* of files, and
`next_note_filename.name` is evaluated on such a list. -/
theorem per_folder_link_raises_attribute_error :
    link_notes_in_directory
        [⟨"vault/2025-01/1-1-2025.md", "1-1-2025.md", "hello"⟩,
         ⟨"vault/2025-01/1-2-2025.md", "1-2-2025.md", "world"⟩]
      = Except.error "AttributeError" := by
  rfl

/-- C4 (counterexample): `1-2.md-2025.md` is not of the form `M-D-YYYY.md`
with numeric fields (under the claimed trailing-extension stripping its
second field is the non-numeric `2.md`, so `specParse` rejects it), yet the
implementation parses it to January 2, 2025, because it removes the interior
`.md` occurrence as well. -/
theorem parse_interior_md_counterexample :
    parse_date_from_filename "1-2.md-2025.md" = some ⟨2025, 1, 2⟩ ∧
    specParse "1-2.md-2025.md" = none := by
  decide

/-! ### Lemmas about `.md` removal (claim C4) -/

theorem removeMdAll_cons_of_ne (c : Char) (l : List Char) (h : c ≠ '.') :
    removeMdAll (c :: l) = c :: removeMdAll l := by
  match l with
  | [] => simp [removeMdAll]
  | [c2] => simp [removeMdAll]
  | c2 :: c3 :: t => simp [removeMdAll, h]

theorem removeMdAll_eq_stripTrailingMd (s : List Char)
    (h : interiorMdFree s = true) : removeMdAll s = stripTrailingMd s := by
  induction s using removeMdAll.induct with
  | case1 => rfl
  | case2 c1 => rfl
  | case3 c1 c2 => rfl
  | case4 c1 c2 c3 rest hmd ih =>
    obtain ⟨e1, e2, e3⟩ := hmd
    subst e1; subst e2; subst e3
    have hrest : rest = [] := by
      simpa [interiorMdFree] using h
    subst hrest
    simp [removeMdAll, stripTrailingMd]
  | case5 c1 c2 c3 rest hmd ih =>
    have h' : interiorMdFree (c2 :: c3 :: rest) = true := by
      simpa [interiorMdFree, hmd] using h
    match rest with
    | [] =>
      have : ¬ (c1 = '.' ∧ c2 = 'm' ∧ c3 = 'd') := hmd
      simp [removeMdAll, stripTrailingMd, this, ih h']
    | c4 :: rest' =>
      have e1 : removeMdAll (c1 :: c2 :: c3 :: c4 :: rest')
          = if c1 = '.' ∧ c2 = 'm' ∧ c3 = 'd' then removeMdAll (c4 :: rest')
            else c1 :: removeMdAll (c2 :: c3 :: c4 :: rest') := rfl
      have e2 : stripTrailingMd (c1 :: c2 :: c3 :: c4 :: rest')
          = c1 :: stripTrailingMd (c2 :: c3 :: c4 :: rest') := rfl
      rw [e1, if_neg hmd, e2, ih h']

/-- C4 (amended): on every filename in which `.md` occurs only as a trailing
extension (if at all), the implementation's Date Parser agrees exactly with
the specified one (`specParse`: strip a trailing `.md`, strip a trailing
`(N)`, match `M-D-YYYY`, validate the calendar date) — so on that domain a
valid `M-D-YYYY.md` name yields exactly its date and every other string
yields no date.  The two differ only on strings with an interior `.md`,
which the implementation also removes. -/
theorem parse_agrees_with_spec_without_interior_md (s : String)
    (h : interiorMdFree s.data = true) :
    parse_date_from_filename s = specParse s := by
  unfold parse_date_from_filename parse_date_chars specParse
  rw [removeMdAll_eq_stripTrailingMd s.data h]

/-- Witness for the amended C4 at the concrete input `2-30-2025.md`. -/
theorem parse_agrees_with_spec_witness :
    interiorMdFree ("2-30-2025.md").data = true ∧
    parse_date_from_filename "2-30-2025.md" = specParse "2-30-2025.md" :=
  ⟨by decide, parse_agrees_with_spec_without_interior_md "2-30-2025.md" (by decide)⟩

/-! ### Lemmas about the duplicate-suffix stripping (claim C9) -/

theorem removeMdAll_append_no_dot (s t : List Char) (h : '.' ∉ s) :
    removeMdAll (s ++ t) = s ++ removeMdAll t := by
  induction s with
  | nil => simp
  | cons c s' ih =>
    have hc : c ≠ '.' := fun e => h (e ▸ List.mem_cons_self c s')
    have hs' : '.' ∉ s' := fun hm => h (List.mem_cons_of_mem c hm)
    rw [List.cons_append, removeMdAll_cons_of_ne c _ hc, ih hs', List.cons_append]

theorem takeWhile_append_stops (p : Char → Bool) (xs : List Char) (y : Char)
    (ys : List Char) (hx : ∀ x ∈ xs, p x = true) (hy : p y = false) :
    (xs ++ y :: ys).takeWhile p = xs := by
  induction xs with
  | nil => simp [List.takeWhile, hy]
  | cons a l ih =>
    have ha : p a = true := hx a (List.mem_cons_self a l)
    have hl : ∀ x ∈ l, p x = true := fun x hm => hx x (List.mem_cons_of_mem a hm)
    simp [List.takeWhile, ha, ih hl]

theorem dropWhile_append_stops (p : Char → Bool) (xs : List Char) (y : Char)
    (ys : List Char) (hx : ∀ x ∈ xs, p x = true) (hy : p y = false) :
    (xs ++ y :: ys).dropWhile p = y :: ys := by
  induction xs with
  | nil => simp [List.dropWhile, hy]
  | cons a l ih =>
    have ha : p a = true := hx a (List.mem_cons_self a l)
    have hl : ∀ x ∈ l, p x = true := fun x hm => hx x (List.mem_cons_of_mem a hm)
    simp [List.dropWhile, ha, ih hl]

theorem isDigit_ne_special (c : Char) (hc : c.isDigit = true) :
    c ≠ '-' ∧ c ≠ '.' ∧ c ≠ ')' ∧ c ≠ '(' := by
  refine ⟨fun e => ?_, fun e => ?_, fun e => ?_, fun e => ?_⟩ <;>
    (subst e; exact absurd hc (by decide))

theorem stripDupSuffix_append_paren (s n : List Char) (hn : n ≠ [])
    (hdig : ∀ c ∈ n, Char.isDigit c = true) :
    stripDupSuffixCh (s ++ '(' :: (n ++ [')'])) = s := by
  have hrev : (s ++ '(' :: (n ++ [')'])).reverse
      = ')' :: (n.reverse ++ '(' :: s.reverse) := by
    simp
  have hdig' : ∀ c ∈ n.reverse, Char.isDigit c = true := by
    intro c hm; exact hdig c (List.mem_reverse.mp hm)
  have htake : (n.reverse ++ '(' :: s.reverse).takeWhile Char.isDigit = n.reverse :=
    takeWhile_append_stops _ _ _ _ hdig' (by decide)
  have hdrop : (n.reverse ++ '(' :: s.reverse).dropWhile Char.isDigit = '(' :: s.reverse :=
    dropWhile_append_stops _ _ _ _ hdig' (by decide)
  have hne : n.reverse ≠ [] := by simpa using hn
  unfold stripDupSuffixCh
  rw [hrev]
  simp [htake, hdrop, hne]

theorem stripDupSuffix_of_last_digit (s : List Char) (c : Char) (t : List Char)
    (hrev : s.reverse = c :: t) (hc : Char.isDigit c = true) :
    stripDupSuffixCh s = s := by
  have hcp : ¬ (c = ')') := (isDigit_ne_special c hc).2.2.1
  unfold stripDupSuffixCh
  rw [hrev]
  simp [hcp]

/-! ### Lemmas about `split("-")` (claims C9, C10) -/

theorem splitOnDash_ne_nil (s : List Char) : splitOnDash s ≠ [] := by
  match s with
  | [] => simp [splitOnDash]
  | c :: rest =>
    by_cases hc : c = '-'
    · simp [splitOnDash, hc]
    · have := splitOnDash_ne_nil rest
      simp only [splitOnDash, if_neg hc]
      match hsp : splitOnDash rest with
      | [] => simp
      | g :: gs => simp

theorem splitOnDash_no_dash (s : List Char) (h : '-' ∉ s) : splitOnDash s = [s] := by
  induction s with
  | nil => rfl
  | cons c s' ih =>
    have hc : c ≠ '-' := fun e => h (e ▸ List.mem_cons_self c s')
    have hs' : '-' ∉ s' := fun hm => h (List.mem_cons_of_mem c hm)
    simp only [splitOnDash, if_neg hc, ih hs']

theorem splitOnDash_append (a t : List Char) (h : '-' ∉ a) :
    splitOnDash (a ++ '-' :: t) = a :: splitOnDash t := by
  induction a with
  | nil => simp [splitOnDash]
  | cons c a' ih =>
    have hc : c ≠ '-' := fun e => h (e ▸ List.mem_cons_self c a')
    have ha' : '-' ∉ a' := fun hm => h (List.mem_cons_of_mem c hm)
    rw [List.cons_append]
    simp only [splitOnDash, if_neg hc, ih ha']

theorem splitOnDash_three (m d y : List Char)
    (hm : '-' ∉ m) (hd : '-' ∉ d) (hy : '-' ∉ y) :
    splitOnDash (m ++ '-' :: (d ++ '-' :: y)) = [m, d, y] := by
  rw [splitOnDash_append m _ hm, splitOnDash_append d _ hd, splitOnDash_no_dash y hy]

/-- C9: appending a parenthesized duplicate marker `(N)` (any nonempty digit
string) to a dated stem does not change what the Date Parser returns:
`M-D-YYYY(N).md` and `M-D-YYYY.md` parse identically — in particular a valid
date parses to the same date with or without the marker. -/
theorem dup_suffix_same_parse (m d y n : List Char)
    (hm : ∀ c ∈ m, Char.isDigit c = true) (hd : ∀ c ∈ d, Char.isDigit c = true)
    (hy : ∀ c ∈ y, Char.isDigit c = true) (hn : ∀ c ∈ n, Char.isDigit c = true)
    (hy0 : y ≠ []) (hn0 : n ≠ []) :
    parse_date_chars ((m ++ '-' :: (d ++ '-' :: y)) ++ '(' :: (n ++ [')']) ++ ['.', 'm', 'd'])
      = parse_date_chars ((m ++ '-' :: (d ++ '-' :: y)) ++ ['.', 'm', 'd']) := by
  have hbase : '.' ∉ (m ++ '-' :: (d ++ '-' :: y)) := by
    intro hmem
    simp only [List.mem_append, List.mem_cons] at hmem
    rcases hmem with hc | hc | hc | hc | hc
    · exact (isDigit_ne_special _ (hm _ hc)).2.1 rfl
    · cases hc
    · exact (isDigit_ne_special _ (hd _ hc)).2.1 rfl
    · cases hc
    · exact (isDigit_ne_special _ (hy _ hc)).2.1 rfl
  have hleft : '.' ∉ ((m ++ '-' :: (d ++ '-' :: y)) ++ '(' :: (n ++ [')'])) := by
    intro hmem
    simp only [List.mem_append, List.mem_cons] at hmem
    rcases hmem with hc | hc | hc | hc
    · exact hbase (by simpa using hc)
    · cases hc
    · exact (isDigit_ne_special _ (hn _ hc)).2.1 rfl
    · simp at hc
  have hmd0 : removeMdAll ['.', 'm', 'd'] = [] := by decide
  have e1 : removeMdAll ((m ++ '-' :: (d ++ '-' :: y)) ++ '(' :: (n ++ [')']) ++ ['.', 'm', 'd'])
      = (m ++ '-' :: (d ++ '-' :: y)) ++ '(' :: (n ++ [')']) := by
    rw [removeMdAll_append_no_dot _ _ hleft, hmd0, List.append_nil]
  have e2 : removeMdAll ((m ++ '-' :: (d ++ '-' :: y)) ++ ['.', 'm', 'd'])
      = m ++ '-' :: (d ++ '-' :: y) := by
    rw [removeMdAll_append_no_dot _ _ hbase, hmd0, List.append_nil]
  obtain ⟨c, t, hyrev⟩ : ∃ c t, y.reverse = c :: t := by
    match hyr : y.reverse with
    | [] => exact absurd (by simpa using hyr) hy0
    | c :: t => exact ⟨c, t, rfl⟩
  have hcdig : Char.isDigit c = true := by
    have : c ∈ y.reverse := hyrev ▸ List.mem_cons_self c t
    exact hy c (List.mem_reverse.mp this)
  have hbrev : (m ++ '-' :: (d ++ '-' :: y)).reverse
      = c :: (t ++ '-' :: d.reverse ++ '-' :: m.reverse) := by
    simp [hyrev]
  unfold parse_date_chars
  rw [e1, e2, stripDupSuffix_append_paren _ n hn0 hn,
    stripDupSuffix_of_last_digit _ c _ hbrev hcdig]

/-- Witness for C9: `6-29-2025(1).md` and `6-29-2025.md` parse identically
(both to June 29, 2025). -/
theorem dup_suffix_same_parse_witness :
    parse_date_chars ((['6'] ++ '-' :: (['2', '9'] ++ '-' :: ['2', '0', '2', '5']))
        ++ '(' :: (['1'] ++ [')']) ++ ['.', 'm', 'd'])
      = parse_date_chars ((['6'] ++ '-' :: (['2', '9'] ++ '-' :: ['2', '0', '2', '5']))
        ++ ['.', 'm', 'd']) ∧
    parse_date_from_filename "6-29-2025(1).md" = some ⟨2025, 6, 29⟩ ∧
    parse_date_from_filename "6-29-2025.md" = some ⟨2025, 6, 29⟩ :=
  ⟨dup_suffix_same_parse ['6'] ['2', '9'] ['2', '0', '2', '5'] ['1']
      (by decide) (by decide) (by decide) (by decide) (by decide) (by decide),
    by decide, by decide⟩

/-! ### The Heading Fixer theorems (claims C8, C10) -/

theorem pyIndex_mem {α : Type} (xs : List α) (i : Int) (v : α)
    (h : pyIndex xs i = some v) : v ∈ xs := by
  unfold pyIndex at h
  split at h
  · exact List.get?_mem h
  · split at h
    · exact List.get?_mem h
    · cases h

theorem headingTitle_three (stem content : String) (a b c : List Char)
    (hsp : splitOnDash stem.data = [a, b, c]) :
    headingTitle stem content =
      match pyInt a with
      | some mval =>
        match pyIndex month_names (mval - 1) with
        | some mn =>
          "# " ++ mn ++ " " ++ (⟨b⟩ : String) ++ ", " ++ (⟨c⟩ : String) ++ "\n\n" ++ content
        | none => "# " ++ stem ++ "\n\n" ++ content
      | none => "# " ++ stem ++ "\n\n" ++ content := by
  unfold headingTitle
  rw [hsp]

/-- C8: the Heading Fixer never propagates an exception.  (1) Whenever the
stem does not split into exactly three hyphen-delimited tokens, the
synthesized title is the verbatim `# <stem>` fallback; (2) on every input
the result is either that fallback or a `# <MonthName> <day>, <year>` title
with a month name drawn from the twelve-entry table (the function is total —
no error escapes); (3) a failing file read makes `fix_markdown_heading`
report `false` (no change) instead of raising. -/
theorem heading_fixer_graceful_fallback :
    (∀ stem content : String, (splitOnDash stem.data).length ≠ 3 →
      headingTitle stem content = "# " ++ stem ++ "\n\n" ++ content) ∧
    (∀ stem content : String,
      headingTitle stem content = "# " ++ stem ++ "\n\n" ++ content ∨
      ∃ mn day year, mn ∈ month_names ∧
        (∃ monthTok, splitOnDash stem.data = [monthTok, day, year]) ∧
        headingTitle stem content
          = "# " ++ mn ++ " " ++ (⟨day⟩ : String) ++ ", " ++ (⟨year⟩ : String)
            ++ "\n\n" ++ content) ∧
    (∀ stem : String, fix_markdown_heading stem none = (none, false)) := by
  refine ⟨?_, ?_, fun stem => rfl⟩
  · intro stem content hlen
    unfold headingTitle
    match hsp : splitOnDash stem.data with
    | [] => rfl
    | [a] => rfl
    | [a, b] => rfl
    | [a, b, c] => exact absurd (by rw [hsp]; rfl) hlen
    | a :: b :: c :: e :: rest => rfl
  · intro stem content
    match hsp : splitOnDash stem.data with
    | [] => exact Or.inl (by unfold headingTitle; rw [hsp])
    | [a] => exact Or.inl (by unfold headingTitle; rw [hsp])
    | [a, b] => exact Or.inl (by unfold headingTitle; rw [hsp])
    | a :: b :: c :: e :: rest => exact Or.inl (by unfold headingTitle; rw [hsp])
    | [a, b, c] =>
      rcases hpi : pyInt a with _ | mval
      · exact Or.inl (by rw [headingTitle_three stem content a b c hsp]; simp [hpi])
      · rcases hidx : pyIndex month_names (mval - 1) with _ | mn
        · exact Or.inl
            (by rw [headingTitle_three stem content a b c hsp]; simp [hpi, hidx])
        · exact Or.inr ⟨mn, b, c, pyIndex_mem _ _ _ hidx, ⟨a, rfl⟩,
            by rw [headingTitle_three stem content a b c hsp]; simp [hpi, hidx]⟩

/-- Witness for C8 at the concrete stem `notes` (one token) and a failing
read. -/
theorem heading_fixer_graceful_fallback_witness :
    (splitOnDash ("notes").data).length ≠ 3 ∧
    headingTitle "notes" "hello" = "# " ++ "notes" ++ "\n\n" ++ "hello" ∧
    fix_markdown_heading "13-1-2025" none = (none, false) :=
  ⟨by decide, heading_fixer_graceful_fallback.1 "notes" "hello" (by decide),
    heading_fixer_graceful_fallback.2.2 "13-1-2025"⟩

/-- C10: on content that does not already start with a heading and a stem
`0-<d>-<y>` whose month field is the numeral 0, the Heading Fixer prepends
`# December <d>, <y>`: the index `int("0") - 1 = -1` picks the *last* entry
of the month table by Python negative indexing instead of ever reaching the
verbatim fallback. -/
theorem month_zero_december_heading (d y : List Char) (content : String)
    (hd : '-' ∉ d) (hy : '-' ∉ y) (hc : startsWithHash content.data = false) :
    fix_markdown_heading ⟨'0' :: '-' :: (d ++ '-' :: y)⟩ (some content)
      = (some ("# " ++ "December" ++ " " ++ (⟨d⟩ : String) ++ ", " ++ (⟨y⟩ : String)
          ++ "\n\n" ++ content), true) := by
  have hsp : splitOnDash ((⟨'0' :: '-' :: (d ++ '-' :: y)⟩ : String)).data
      = [['0'], d, y] := splitOnDash_three ['0'] d y (by decide) hd hy
  have ht : headingTitle ⟨'0' :: '-' :: (d ++ '-' :: y)⟩ content
      = "# " ++ "December" ++ " " ++ (⟨d⟩ : String) ++ ", " ++ (⟨y⟩ : String)
          ++ "\n\n" ++ content := by
    rw [headingTitle_three _ content ['0'] d y hsp]
    simp only [show pyInt ['0'] = some (0 : Int) from by decide]
    simp only [show pyIndex month_names ((0 : Int) - 1) = some "December" from by decide]
  have e : fix_markdown_heading ⟨'0' :: '-' :: (d ++ '-' :: y)⟩ (some content)
      = if startsWithHash content.data then (some content, false)
        else (some (headingTitle ⟨'0' :: '-' :: (d ++ '-' :: y)⟩ content), true) := rfl
  rw [e, hc]
  simp only [Bool.false_eq_true, if_false]
  rw [ht]

/-- Witness for C10 at stem `0-5-2025` and content `hello`. -/
theorem month_zero_december_heading_witness :
    ¬ '-' ∈ (['5'] : List Char) ∧ ¬ '-' ∈ (['2', '0', '2', '5'] : List Char) ∧
    startsWithHash ("hello").data = false ∧
    fix_markdown_heading ⟨'0' :: '-' :: (['5'] ++ '-' :: ['2', '0', '2', '5'])⟩ (some "hello")
      = (some ("# " ++ "December" ++ " " ++ (⟨['5']⟩ : String) ++ ", "
          ++ (⟨['2', '0', '2', '5']⟩ : String) ++ "\n\n" ++ "hello"), true) :=
  ⟨by decide, by decide, by decide,
    month_zero_december_heading ['5'] ['2', '0', '2', '5'] "hello"
      (by decide) (by decide) (by decide)⟩

/-! ### Lemmas about the vault-wide date mapping (claim C3) -/

theorem lookupAssoc_insertAssoc (m : List (Date × NoteFile)) (d : Date)
    (f : NoteFile) (q : Date) :
    lookupAssoc (insertAssoc m d f) q = if q = d then some f else lookupAssoc m q := by
  induction m with
  | nil =>
    by_cases hq : q = d
    · simp [insertAssoc, lookupAssoc, hq]
    · simp [insertAssoc, lookupAssoc, hq, Ne.symm hq]
  | cons kv m' ih =>
    obtain ⟨k, v⟩ := kv
    by_cases hk : k = d
    · subst hk
      by_cases hq : q = k
      · subst hq
        simp [insertAssoc, lookupAssoc]
      · simp [insertAssoc, lookupAssoc, hq, Ne.symm hq]
    · by_cases hq : q = d
      · subst hq
        have hkq : ¬ k = q := hk
        simp [insertAssoc, lookupAssoc, hk, hkq, ih]
      · by_cases hkq : k = q
        · simp [insertAssoc, lookupAssoc, hk, hkq, hq]
        · simp [insertAssoc, lookupAssoc, hk, hkq, hq, ih]

theorem lookupAssoc_foldl_vaultStep (fs : List NoteFile) :
    ∀ (m : List (Date × NoteFile)) (d : Date),
      lookupAssoc (fs.foldl vaultStep m) d
        = match lastWithDate d fs with
          | some g => some g
          | none => lookupAssoc m d := by
  induction fs with
  | nil => intro m d; rfl
  | cons f fs ih =>
    intro m d
    rw [List.foldl_cons, ih (vaultStep m f) d]
    have hstep : lookupAssoc (vaultStep m f) d
        = if parse_date_from_filename f.name = some d then some f
          else lookupAssoc m d := by
      unfold vaultStep
      match hp : parse_date_from_filename f.name with
      | none => simp
      | some d' =>
        rw [lookupAssoc_insertAssoc]
        by_cases hq : d = d'
        · subst hq; simp
        · simp [hq, Ne.symm hq]
    show (match lastWithDate d fs with
          | some g => some g
          | none => lookupAssoc (vaultStep m f) d)
        = match lastWithDate d (f :: fs) with
          | some g => some g
          | none => lookupAssoc m d
    have hcons : lastWithDate d (f :: fs)
        = match lastWithDate d fs with
          | some g => some g
          | none => if parse_date_from_filename f.name = some d then some f else none :=
      rfl
    rw [hcons]
    match lastWithDate d fs with
    | some g => rfl
    | none =>
      rw [hstep]
      by_cases hp : parse_date_from_filename f.name = some d
      · simp [hp]
      · simp [hp]

theorem mem_insertAssoc (m : List (Date × NoteFile)) (d : Date) (f : NoteFile)
    (p : Date × NoteFile) (hp : p ∈ insertAssoc m d f) : p = (d, f) ∨ p ∈ m := by
  induction m with
  | nil => simp [insertAssoc] at hp; exact Or.inl hp
  | cons kv m' ih =>
    obtain ⟨k, v⟩ := kv
    by_cases hk : k = d
    · subst hk
      simp only [insertAssoc, if_pos rfl] at hp
      rcases List.mem_cons.mp hp with h | h
      · exact Or.inl h
      · exact Or.inr (List.mem_cons_of_mem _ h)
    · simp only [insertAssoc, if_neg hk] at hp
      rcases List.mem_cons.mp hp with h | h
      · exact Or.inr (h ▸ List.mem_cons_self _ _)
      · rcases ih h with h' | h'
        · exact Or.inl h'
        · exact Or.inr (List.mem_cons_of_mem _ h')

theorem mem_foldl_vaultStep (fs : List NoteFile) :
    ∀ (m : List (Date × NoteFile)) (p : Date × NoteFile),
      p ∈ fs.foldl vaultStep m →
      p ∈ m ∨ parse_date_from_filename p.2.name = some p.1 := by
  induction fs with
  | nil => intro m p hp; exact Or.inl hp
  | cons f fs ih =>
    intro m p hp
    rw [List.foldl_cons] at hp
    rcases ih (vaultStep m f) p hp with h | h
    · unfold vaultStep at h
      match hq : parse_date_from_filename f.name with
      | none => rw [hq] at h; exact Or.inl h
      | some d' =>
        rw [hq] at h
        rcases mem_insertAssoc m d' f p h with h' | h'
        · subst h'; exact Or.inr hq
        · exact Or.inl h'
    · exact Or.inr h

def assocKeys (m : List (Date × NoteFile)) : List Date := m.map Prod.fst

theorem keys_insertAssoc (m : List (Date × NoteFile)) (d : Date) (f : NoteFile) :
    assocKeys (insertAssoc m d f)
      = if d ∈ assocKeys m then assocKeys m else assocKeys m ++ [d] := by
  induction m with
  | nil => simp [assocKeys, insertAssoc]
  | cons kv m' ih =>
    obtain ⟨k, v⟩ := kv
    by_cases hk : k = d
    · subst hk
      simp [assocKeys, insertAssoc]
    · have hdk : ¬ d = k := fun e => hk e.symm
      rw [show insertAssoc ((k, v) :: m') d f = (k, v) :: insertAssoc m' d f from by
        simp [insertAssoc, hk]]
      show k :: assocKeys (insertAssoc m' d f) = _
      rw [ih]
      by_cases hmem : d ∈ assocKeys m'
      · have hm2 : d ∈ assocKeys ((k, v) :: m') := List.mem_cons_of_mem _ hmem
        rw [if_pos hmem, if_pos hm2]
        rfl
      · have hm2 : d ∉ assocKeys ((k, v) :: m') := by
          intro hc
          rcases List.mem_cons.mp hc with h | h
          · exact hdk h
          · exact hmem h
        rw [if_neg hmem, if_neg hm2]
        rfl

theorem nodup_keys_foldl_vaultStep (fs : List NoteFile) :
    ∀ (m : List (Date × NoteFile)), (assocKeys m).Nodup →
      (assocKeys (fs.foldl vaultStep m)).Nodup := by
  induction fs with
  | nil => intro m hm; exact hm
  | cons f fs ih =>
    intro m hm
    rw [List.foldl_cons]
    refine ih _ ?_
    unfold vaultStep
    match parse_date_from_filename f.name with
    | none => exact hm
    | some d =>
      rw [keys_insertAssoc]
      by_cases hd : d ∈ assocKeys m
      · simp [hd, hm]
      · simp [hd, hm, List.nodup_append, List.disjoint_singleton]

theorem lookupAssoc_eq_of_mem (m : List (Date × NoteFile)) (k : Date) (v : NoteFile)
    (hn : (assocKeys m).Nodup) (hm : (k, v) ∈ m) : lookupAssoc m k = some v := by
  induction m with
  | nil => cases hm
  | cons kv m' ih =>
    obtain ⟨k', v'⟩ := kv
    rcases List.mem_cons.mp hm with h | h
    · obtain ⟨e1, e2⟩ := Prod.mk.injEq .. ▸ h
      subst e1; subst e2
      simp [lookupAssoc]
    · by_cases hk : k' = k
      · exfalso
        subst hk
        have : k' ∈ assocKeys m' := by
          exact List.mem_map.mpr ⟨(k', v), h, rfl⟩
        exact (List.nodup_cons.mp hn).1 this
      · simp only [lookupAssoc, if_neg hk]
        exact ih (List.nodup_cons.mp hn).2 h

theorem lastWithDate_append (d : Date) (l l' : List NoteFile) :
    lastWithDate d (l ++ l')
      = match lastWithDate d l' with
        | some g => some g
        | none => lastWithDate d l := by
  induction l with
  | nil =>
    simp only [List.nil_append]
    match lastWithDate d l' with
    | some g => rfl
    | none => rfl
  | cons f l ih =>
    rw [List.cons_append]
    show (match lastWithDate d (l ++ l') with
          | some g => some g
          | none => if parse_date_from_filename f.name = some d then some f else none)
        = _
    rw [ih]
    match lastWithDate d l' with
    | some g => rfl
    | none => rfl

theorem lastWithDate_eq_none (d : Date) (l : List NoteFile)
    (h : ∀ g ∈ l, parse_date_from_filename g.name ≠ some d) :
    lastWithDate d l = none := by
  induction l with
  | nil => rfl
  | cons f l ih =>
    have hf := h f (List.mem_cons_self f l)
    have hl : ∀ g ∈ l, parse_date_from_filename g.name ≠ some d :=
      fun g hg => h g (List.mem_cons_of_mem f hg)
    show (match lastWithDate d l with
          | some g => some g
          | none => if parse_date_from_filename f.name = some d then some f else none)
        = none
    rw [ih hl, if_neg hf]

/-- C3: in vault-wide linking, when two scanned files share a parsed date,
the one encountered later in the scan is the one the date maps to — it is
both the link target for that date and the only one iterated as a link
source — while the earlier file does not occur in the mapping at all. -/
theorem vault_duplicate_date_last_wins
    (pre mid post : List NoteFile) (f1 f2 : NoteFile) (d : Date)
    (h1 : parse_date_from_filename f1.name = some d)
    (h2 : parse_date_from_filename f2.name = some d)
    (hpost : ∀ g ∈ post, parse_date_from_filename g.name ≠ some d)
    (hne : f1 ≠ f2) :
    lookupAssoc (link_all_vault_notes_map (pre ++ f1 :: (mid ++ f2 :: post))) d
      = some f2 ∧
    ∀ k, (k, f1) ∉ link_all_vault_notes_map (pre ++ f1 :: (mid ++ f2 :: post)) := by
  have hlast : lastWithDate d (pre ++ f1 :: (mid ++ f2 :: post)) = some f2 := by
    rw [lastWithDate_append]
    have h2post : lastWithDate d (f2 :: post) = some f2 := by
      show (match lastWithDate d post with
            | some g => some g
            | none => if parse_date_from_filename f2.name = some d then some f2 else none)
          = some f2
      rw [lastWithDate_eq_none d post hpost, if_pos h2]
    have hmidf2 : lastWithDate d (mid ++ f2 :: post) = some f2 := by
      rw [lastWithDate_append, h2post]
    show (match lastWithDate d (f1 :: (mid ++ f2 :: post)) with
          | some g => some g
          | none => lastWithDate d pre)
        = some f2
    have : lastWithDate d (f1 :: (mid ++ f2 :: post)) = some f2 := by
      show (match lastWithDate d (mid ++ f2 :: post) with
            | some g => some g
            | none => if parse_date_from_filename f1.name = some d then some f1 else none)
          = some f2
      rw [hmidf2]
    rw [this]
  have hlook : lookupAssoc (link_all_vault_notes_map (pre ++ f1 :: (mid ++ f2 :: post))) d
      = some f2 := by
    unfold link_all_vault_notes_map
    rw [lookupAssoc_foldl_vaultStep, hlast]
  refine ⟨hlook, fun k hk => ?_⟩
  rcases mem_foldl_vaultStep _ [] (k, f1) hk with h | h
  · cases h
  · have hkd : k = d := by
      have := h.symm.trans h1
      exact (Option.some.injEq _ _ ▸ this)
    subst hkd
    have hnodup : (assocKeys (link_all_vault_notes_map (pre ++ f1 :: (mid ++ f2 :: post)))).Nodup := by
      unfold link_all_vault_notes_map
      exact nodup_keys_foldl_vaultStep _ [] (by simp [assocKeys])
    have := lookupAssoc_eq_of_mem _ k f1 hnodup hk
    rw [hlook] at this
    exact hne (Option.some.injEq _ _ ▸ this).symm

/-- Witness for C3: two files named `6-29-2025.md` in different subfolders;
the later-scanned one is the mapping's value for June 29, 2025 and the
earlier one is absent from the mapping. -/
theorem vault_duplicate_date_last_wins_witness :
    lookupAssoc (link_all_vault_notes_map
        ([] ++ (⟨"vault/2025-06/6-29-2025.md", "6-29-2025.md", "first"⟩ : NoteFile)
          :: ([] ++ (⟨"vault/Inbox/6-29-2025.md", "6-29-2025.md", "second"⟩ : NoteFile) :: [])))
        ⟨2025, 6, 29⟩
      = some ⟨"vault/Inbox/6-29-2025.md", "6-29-2025.md", "second"⟩ ∧
    ∀ k, (k, (⟨"vault/2025-06/6-29-2025.md", "6-29-2025.md", "first"⟩ : NoteFile))
        ∉ link_all_vault_notes_map
          ([] ++ (⟨"vault/2025-06/6-29-2025.md", "6-29-2025.md", "first"⟩ : NoteFile)
            :: ([] ++ (⟨"vault/Inbox/6-29-2025.md", "6-29-2025.md", "second"⟩ : NoteFile) :: [])) :=
  vault_duplicate_date_last_wins [] [] []
    ⟨"vault/2025-06/6-29-2025.md", "6-29-2025.md", "first"⟩
    ⟨"vault/Inbox/6-29-2025.md", "6-29-2025.md", "second"⟩
    ⟨2025, 6, 29⟩ (by decide) (by decide)
    (fun g hg => absurd hg (List.not_mem_nil g)) (by decide)

/-! ### Lemmas about the Organizer's collision loop (claim C6) -/

theorem digitVal_digitChar (d : Nat) (h : d < 10) : (digitChar d).toNat - 48 = d := by
  interval_cases d <;> decide

theorem natOfDigits_natDecimalAux (fuel : Nat) :
    ∀ n : Nat, n < 10 ^ fuel → natOfDigits (natDecimalAux fuel n) = n := by
  induction fuel with
  | zero =>
    intro n h
    interval_cases n
    rfl
  | succ fuel ih =>
    intro n h
    by_cases hn : n < 10
    · show natOfDigits (if n < 10 then [digitChar n] else _) = n
      rw [if_pos hn]
      show 10 * 0 + ((digitChar n).toNat - 48) = n
      rw [digitVal_digitChar n hn]
      omega
    · show natOfDigits (if n < 10 then _ else
        natDecimalAux fuel (n / 10) ++ [digitChar (n % 10)]) = n
      rw [if_neg hn]
      have hdiv : n / 10 < 10 ^ fuel := by
        rw [Nat.div_lt_iff_lt_mul (by norm_num)]
        calc n < 10 ^ (fuel + 1) := h
          _ = 10 ^ fuel * 10 := by ring
      unfold natOfDigits
      rw [List.foldl_append]
      show 10 * natOfDigits (natDecimalAux fuel (n / 10)) + ((digitChar (n % 10)).toNat - 48) = n
      rw [ih (n / 10) hdiv, digitVal_digitChar _ (Nat.mod_lt n (by norm_num))]
      omega

theorem pyStr_injective (a b : Nat) (h : pyStr a = pyStr b) : a = b := by
  have hd : natDecimalAux (a + 1) a = natDecimalAux (b + 1) b := by
    have := congrArg String.data h
    simpa [pyStr] using this
  have bound : ∀ n : Nat, n < 10 ^ (n + 1) := fun n =>
    lt_of_lt_of_le (Nat.lt_two_pow n)
      (le_trans (Nat.pow_le_pow_left (by norm_num) n)
        (Nat.pow_le_pow_right (by norm_num) (Nat.le_succ n)))
  have ha := natOfDigits_natDecimalAux (a + 1) a (bound a)
  have hb := natOfDigits_natDecimalAux (b + 1) b (bound b)
  rw [← ha, ← hb, hd]

theorem string_data_append (a b : String) : (a ++ b).data = a.data ++ b.data := rfl

theorem mkCand_inj (stem sfx : String) (i j : Nat)
    (h : mkCand stem sfx i = mkCand stem sfx j) : i = j := by
  have hd := congrArg String.data h
  simp only [mkCand, string_data_append, List.append_assoc] at hd
  have h1 : (pyStr i).data ++ (")".data ++ sfx.data)
      = (pyStr j).data ++ (")".data ++ sfx.data) := by
    have := List.append_cancel_left hd
    exact List.append_cancel_left this
  have h2 : (pyStr i).data = (pyStr j).data := List.append_cancel_right h1
  exact pyStr_injective i j (String.ext h2)

/-- The candidate names `stem(counter)sfx, ..., stem(counter+fuel-1)sfx`. -/
def candsFrom (stem sfx : String) (counter fuel : Nat) : List String :=
  (List.range fuel).map fun j => mkCand stem sfx (counter + j)

theorem length_filter_le_filter (p q : String → Bool) (S : List String)
    (hpq : ∀ x, p x = true → q x = true) :
    (S.filter p).length ≤ (S.filter q).length := by
  induction S with
  | nil => exact Nat.le_refl 0
  | cons a S ih =>
    by_cases hpa : p a = true
    · have hqa := hpq a hpa
      simp [List.filter, hpa, hqa]
      exact ih
    · have hpa' : p a = false := Bool.eq_false_iff.mpr hpa
      by_cases hqa : q a = true
      · simp [List.filter, hpa', hqa]
        exact Nat.le_succ_of_le ih
      · have hqa' : q a = false := Bool.eq_false_iff.mpr hqa
        simp [List.filter, hpa', hqa']
        exact ih

theorem length_filter_lt_filter (p q : String → Bool) (S : List String) (a : String)
    (ha : a ∈ S) (hpa : p a = false) (hqa : q a = true)
    (hpq : ∀ x, p x = true → q x = true) :
    (S.filter p).length < (S.filter q).length := by
  induction S with
  | nil => cases ha
  | cons b S ih =>
    rcases List.mem_cons.mp ha with h | h
    · subst h
      simp [List.filter, hpa, hqa]
      exact Nat.lt_succ_of_le (length_filter_le_filter p q S hpq)
    · by_cases hpb : p b = true
      · have hqb := hpq b hpb
        simp [List.filter, hpb, hqb]
        exact ih h
      · have hpb' : p b = false := Bool.eq_false_iff.mpr hpb
        by_cases hqb : q b = true
        · simp [List.filter, hpb', hqb]
          exact Nat.lt_succ_of_lt (ih h)
        · have hqb' : q b = false := Bool.eq_false_iff.mpr hqb
          simp [List.filter, hpb', hqb']
          exact ih h

theorem findFreeName_not_mem (existing : List String) (stem sfx : String) :
    ∀ (fuel counter : Nat),
      (existing.filter fun x => decide (x ∈ candsFrom stem sfx counter fuel)).length < fuel →
      findFreeName existing stem sfx fuel counter ∉ existing := by
  intro fuel
  induction fuel with
  | zero => intro counter h; exact absurd h (by omega)
  | succ fuel ih =>
    intro counter h
    show (if mkCand stem sfx counter ∈ existing
          then findFreeName existing stem sfx fuel (counter + 1)
          else mkCand stem sfx counter) ∉ existing
    by_cases hc : mkCand stem sfx counter ∈ existing
    · rw [if_pos hc]
      refine ih (counter + 1) ?_
      have hsub : ∀ x : String,
          decide (x ∈ candsFrom stem sfx (counter + 1) fuel) = true →
          decide (x ∈ candsFrom stem sfx counter (fuel + 1)) = true := by
        intro x hx
        rw [decide_eq_true_iff] at hx ⊢
        simp only [candsFrom, List.mem_map, List.mem_range] at hx ⊢
        obtain ⟨j, hj, hx⟩ := hx
        exact ⟨j + 1, by omega, by rw [← hx]; congr 1; omega⟩
      have hnotp : decide (mkCand stem sfx counter ∈ candsFrom stem sfx (counter + 1) fuel)
          = false := by
        rw [decide_eq_false_iff_not]
        intro hmem
        simp only [candsFrom, List.mem_map, List.mem_range] at hmem
        obtain ⟨j, hj, he⟩ := hmem
        have := mkCand_inj stem sfx (counter + 1 + j) counter he
        omega
      have hq : decide (mkCand stem sfx counter ∈ candsFrom stem sfx counter (fuel + 1))
          = true := by
        rw [decide_eq_true_iff]
        simp only [candsFrom, List.mem_map, List.mem_range]
        exact ⟨0, by omega, by congr 1⟩
      have hlt := length_filter_lt_filter _ _ existing (mkCand stem sfx counter)
        hc hnotp hq hsub
      omega
    · rw [if_neg hc]
      exact hc

/-- C6: the Organizer's move-target resolution never chooses a name already
present in the destination folder — on a collision it appends `(1)`, `(2)`,
... to the stem (keeping the extension) until a free name is found — and in
particular when only the original name `stem ++ sfx` is taken and
`stem(1)sfx` is free, the chosen name is exactly `stem(1)sfx`. -/
theorem organize_collision_free_name (existing : List String) (stem sfx : String) :
    resolveTarget existing stem sfx ∉ existing ∧
    (stem ++ sfx ∈ existing → mkCand stem sfx 1 ∉ existing →
      resolveTarget existing stem sfx = mkCand stem sfx 1) := by
  constructor
  · unfold resolveTarget
    by_cases hf : stem ++ sfx ∈ existing
    · rw [if_pos hf]
      refine findFreeName_not_mem existing stem sfx (existing.length + 1) 1 ?_
      have := List.length_filter_le
        (fun x => decide (x ∈ candsFrom stem sfx 1 (existing.length + 1))) existing
      omega
    · rw [if_neg hf]
      exact hf
  · intro h1 h2
    unfold resolveTarget
    rw [if_pos h1]
    show (if mkCand stem sfx 1 ∈ existing
          then findFreeName existing stem sfx existing.length 2
          else mkCand stem sfx 1) = mkCand stem sfx 1
    rw [if_neg h2]

/-- Witness for C6: destination already holds `6-29-2025.md`; the second
file resolving there is moved to `6-29-2025(1).md`, overwriting nothing. -/
theorem organize_collision_free_name_witness :
    "6-29-2025" ++ ".md" ∈ ["6-29-2025.md"] ∧
    mkCand "6-29-2025" ".md" 1 ∉ ["6-29-2025.md"] ∧
    resolveTarget ["6-29-2025.md"] "6-29-2025" ".md" ∉ ["6-29-2025.md"] ∧
    resolveTarget ["6-29-2025.md"] "6-29-2025" ".md" = mkCand "6-29-2025" ".md" 1 :=
  ⟨by decide, by decide,
    (organize_collision_free_name ["6-29-2025.md"] "6-29-2025" ".md").1,
    (organize_collision_free_name ["6-29-2025.md"] "6-29-2025" ".md").2
      (by decide) (by decide)⟩

end ObsidianClean
